import Mathlib

/-!
Verification of the Branch Lineage & Unique-Commit Resolution Engine of the
riddlesolver repository.

The definitions below are shallow embeddings of the Python source:

* `validate_arguments`            — riddlesolver/utils.py, lines 66-81
* `common_commit_count`,
  `find_base_branch`,
  `get_base_branch_map`           — riddlesolver/utils.py, lines 179-244
* `get_all_unique_commits`        — riddlesolver/utils.py, lines 247-306
* `remove_duplicated_commits`     — riddlesolver/utils.py, lines 134-176
* `fetch_commits_from_repo`       — riddlesolver/app.py, lines 227-254
* `fetch_commits_from_local`      — riddlesolver/repository.py, lines 139-217
* `fetch_commits_from_remote`     — riddlesolver/repository.py, lines 220-294

Machine integers do not occur in the modelled code; timestamps are embedded as
`Int` (Python datetimes under a total order), commit records as structures of
their JSON / GitPython fields, and network / repository reads as explicit
oracle inputs (a deterministic mapping from a branch name to the commit list
the backend returns for it).  Fallible Python code is embedded with `Except`.
-/

namespace RiddleSolver

/-- A commit record as the source manipulates it: the GitHub API JSON object
respectively the GitPython commit object, restricted to the fields the
modelled code reads.  `sha` is the content-addressed identifier; `date` is the
commit timestamp. -/
structure Commit where
  sha : String
  message : String
  authorName : String
  authorEmail : String
  date : Int
deriving DecidableEq, Repr

/-- One entry of a group's `commit_messages` list: the Python dict
`{"messages": ..., "sha": ...}` built by the fetch functions.  The transient
`removed` marker that `remove_duplicated_commits` sets on duplicates is
embedded as the filtering it effects: a marked entry never survives the pass,
and entries produced by the fetch functions never carry the marker. -/
structure Msg where
  messages : String
  sha : String
deriving DecidableEq, Repr

/-- One result group as produced by the fetch functions and consumed by
`remove_duplicated_commits`: the Python dict with keys `branch`, `author`,
`start_date`, `end_date`, `commit_messages`. -/
structure Group where
  branch : String
  author : String
  start_date : Int
  end_date : Int
  commit_messages : List Msg
deriving DecidableEq, Repr

/-! ### Python string ordering

Python compares strings lexicographically by Unicode code points; this is the
order `sorted` uses on the `(author, branch != 'main')` key tuples in
`remove_duplicated_commits`. -/

/-- Lexicographic strict order on character lists, by code point. -/
def strLtAux : List Char → List Char → Bool
  | [], [] => false
  | [], _ :: _ => true
  | _ :: _, [] => false
  | a :: as, b :: bs => if a < b then true else if b < a then false else strLtAux as bs

/-- Python's `<` on strings. -/
def strLt (a b : String) : Bool := strLtAux a.toList b.toList

/-- Python's `<=` comparison on the sort key `(author, branch != 'main')`
(string ascending, then `False < True` on the bool). -/
def keyLE (k₁ k₂ : String × Bool) : Bool :=
  strLt k₁.1 k₂.1 || (decide (k₁.1 = k₂.1) && (!k₁.2 || k₂.2))

/-- The fields of a group that the deduplication ordering inspects. -/
def hdr (g : Group) : String × String := (g.branch, g.author)

/-- The Python sort key `(x['author'], x['branch'] != 'main')` read off a
`(branch, author)` header. -/
def hdrKey (p : String × String) : String × Bool := (p.2, decide (p.1 ≠ "main"))

/-- Key comparison lifted to headers. -/
def hdrLE (p₁ p₂ : String × String) : Bool := keyLE (hdrKey p₁) (hdrKey p₂)

/-- Key comparison lifted to groups. -/
def gLE (g₁ g₂ : Group) : Bool := hdrLE (hdr g₁) (hdr g₂)

/-- Whether a group belongs to the hardcoded primary branch label. -/
def isMainG (g : Group) : Bool := decide (g.branch = "main")

/-- Stable insertion into a key-sorted list: the new element goes in front of
the first element whose key is not smaller.  Folding this over the input
reproduces Python's stable `sorted` (any stable sort of a total preorder
yields the same list). -/
def insertGroup (x : Group) : List Group → List Group
  | [] => [x]
  | y :: l => if gLE x y then x :: y :: l else y :: insertGroup x l

/-- Stable sort by `(author, branch != 'main')`, modelling
`sorted(commits, key=lambda x: (x['author'], x['branch'] != 'main'))`. -/
def sortGroups : List Group → List Group
  | [] => []
  | x :: l => insertGroup x (sortGroups l)

/-- Locate the first group of the primary branch and take it out, keeping the
rest in order.  Models the `commits.remove(commit); commits.insert(0, commit);
break` loop of `remove_duplicated_commits` (list `remove` deletes the first
structurally equal element, which is exactly the first `main` group). -/
def extractFirstMain : List Group → Option (Group × List Group)
  | [] => none
  | g :: gs =>
    if isMainG g then some (g, gs)
    else
      match extractFirstMain gs with
      | none => none
      | some (x, rest) => some (x, g :: rest)

/-- Promote the first primary-branch group to the front, if any. -/
def moveMainFront (l : List Group) : List Group :=
  match extractFirstMain l with
  | none => l
  | some (x, rest) => x :: rest

/-- One group's message walk of the dedup pass: a sha already seen is marked
removed (hence dropped by the subsequent comprehension), a fresh sha is kept
and recorded.  Returns the surviving messages and the updated seen
collection; only membership of the seen collection is ever queried, so its
element order is irrelevant. -/
def filterMsgs (seen : List String) : List Msg → List Msg × List String
  | [] => ([], seen)
  | m :: ms =>
    if m.sha ∈ seen then filterMsgs seen ms
    else
      let r := filterMsgs (m.sha :: seen) ms
      (m :: r.1, r.2)

/-- The single pass of `remove_duplicated_commits` over the arranged groups,
threading the global seen collection. -/
def markPass (seen : List String) : List Group → List Group
  | [] => []
  | g :: gs =>
    let r := filterMsgs seen g.commit_messages
    { g with commit_messages := r.1 } :: markPass r.2 gs

/-- riddlesolver/utils.py, `remove_duplicated_commits`: sort by
`(author, branch != 'main')`, promote the first `main` group to the front,
drop every message whose sha was already seen, then drop groups left with no
messages. -/
def remove_duplicated_commits (commits : List Group) : List Group :=
  let arranged := moveMainFront (sortGroups commits)
  (markPass [] arranged).filter (fun g => !g.commit_messages.isEmpty)

/-! ### Branch lineage inference (utils.py, get_base_branch_map) -/

/-- Python's `len(set(branch_commit_hashes) & set(other_branch_commit_hashes))`:
the number of distinct shas the two commit lists share. -/
def common_commit_count (bc oc : List Commit) : Nat :=
  (((bc.map Commit.sha).dedup).filter (fun s => decide (s ∈ oc.map Commit.sha))).length

/-- One step of the base-branch scan of `get_base_branch_map`: the accumulator
carries `(base_branch, base_branch_commits)`, and a candidate replaces it
exactly when its distinct-sha overlap with the current branch exceeds the
length of the stored `base_branch_commits` list. -/
def baseScanStep (bName : String) (bc : List Commit)
    (acc : Option String × List Commit) (o : String × List Commit) :
    Option String × List Commit :=
  if o.1 ≠ bName then
    if acc.2.length < common_commit_count bc o.2 then (some o.1, o.2) else acc
  else acc

/-- The inner loop of `get_base_branch_map` for one branch: scan every other
branch in input order starting from `base_branch = None`,
`base_branch_commits = []`. -/
def find_base_branch (bName : String) (bc : List Commit)
    (branches : List (String × List Commit)) : Option String × List Commit :=
  branches.foldl (baseScanStep bName bc) (none, [])

/-- riddlesolver/utils.py, `get_base_branch_map`: the input list pairs every
branch (in the order the backend lists them) with the commit list the backend
returns for it; the incremental response cache of the Python code is
semantically invisible because responses are deterministic per branch. -/
def get_base_branch_map (branches : List (String × List Commit)) :
    List (String × Option String) :=
  branches.map (fun b => (b.1, (find_base_branch b.1 b.2 branches).1))

/-- Formalisation of claim C1's wording (not of the source): the parent of a
branch is the first other branch attaining the maximal sha overlap, provided
that maximum is positive. -/
def claimed_lineage_parent (bName : String) (bc : List Commit)
    (branches : List (String × List Commit)) : Option String :=
  (branches.foldl (fun (acc : Option (String × List Commit)) o =>
    if o.1 ≠ bName then
      match acc with
      | none => if 0 < common_commit_count bc o.2 then some o else none
      | some cur =>
        if common_commit_count bc cur.2 < common_commit_count bc o.2 then some o else acc
    else acc) none).map (·.1)

/-- The scan of `find_base_branch` written as plain recursion with an explicit
current candidate, as the amended claim describes it. -/
def amended_scan (bName : String) (bc : List Commit) :
    List (String × List Commit) → Option (String × List Commit) → Option String
  | [], cand => cand.map (·.1)
  | o :: rest, cand =>
    if o.1 ≠ bName then
      if (match cand with | none => 0 | some c => c.2.length) < common_commit_count bc o.2 then
        amended_scan bName bc rest (some o)
      else amended_scan bName bc rest cand
    else amended_scan bName bc rest cand

/-! ### Unique commit extraction (utils.py, get_all_unique_commits) -/

/-- riddlesolver/utils.py, `get_all_unique_commits`: `commitsOf` is the
deterministic mapping from a branch name to the commit list the backend
(response cache or API) yields for it.  Note the two source subtleties kept
here: `if not base_branch` is also true for an empty branch-name string, and
the filter `commit not in base_branch_commits` compares whole commit records,
not shas. -/
def get_all_unique_commits (baseBranchMap : List (String × Option String))
    (commitsOf : String → List Commit) : List (String × List Commit) :=
  baseBranchMap.map (fun e =>
    match e.2 with
    | none => (e.1, commitsOf e.1)
    | some base =>
      if base = "" then (e.1, commitsOf e.1)
      else (e.1, (commitsOf e.1).filter (fun c => decide (c ∉ commitsOf base))))

/-! ### Commit source adapter (app.py fetch_commits_from_repo) -/

/-- riddlesolver/app.py, `fetch_commits_from_repo`: `branches` pairs every
branch of the repository (in `repo.branches` order) with the commit sequence
`repo.iter_commits` yields for it.  A commit is kept iff its timestamp lies in
the window and, when an author filter is given, its author email or name
equals the filter exactly. -/
def fetch_commits_from_repo (branches : List (String × List Commit))
    (startDate endDate : Int) (author : Option String) : List Commit × List String :=
  (branches.foldr (fun br acc =>
      br.2.filter (fun c =>
        decide (startDate ≤ c.date) && decide (c.date ≤ endDate) &&
        (match author with
         | none => true
         | some a => decide (c.authorEmail = a) || decide (c.authorName = a))) ++ acc) [],
   branches.map (·.1))

/-! ### Local fetch error behaviour (repository.py fetch_commits_from_local) -/

/-- Python runtime errors the modelled code can raise. -/
inductive PyError where
  | valueError (msg : String)
  | attributeError (msg : String)
deriving DecidableEq, Repr

/-- The methods of the Python 3 built-in `str` type (documentation section
"String Methods"); attribute lookup of any other name on a `str` raises
`AttributeError`. -/
def pyStrMethodNames : List String :=
  ["capitalize", "casefold", "center", "count", "encode", "endswith",
   "expandtabs", "find", "format", "format_map", "index", "isalnum", "isalpha",
   "isascii", "isdecimal", "isdigit", "isidentifier", "islower", "isnumeric",
   "isprintable", "isspace", "istitle", "isupper", "join", "ljust", "lower",
   "lstrip", "maketrans", "removeprefix", "removesuffix", "replace",
   "rfind", "rindex", "rjust", "rpartition", "rsplit", "rstrip", "split",
   "splitlines", "startswith", "strip", "swapcase", "title", "translate",
   "upper", "zfill", "partition"]

/-- Attribute lookup of a method name on a Python `str` value. -/
def pyStrGetMethod (name : String) : Except PyError Unit :=
  if name ∈ pyStrMethodNames then Except.ok ()
  else Except.error (PyError.attributeError ("str object has no attribute " ++ name))

/-- Prefix test on character lists. -/
def prefixOfB : List Char → List Char → Bool
  | [], _ => true
  | _ :: _, [] => false
  | a :: as, b :: bs => decide (a = b) && prefixOfB as bs

/-- Substring test on character lists. -/
def substrB (pat : List Char) : List Char → Bool
  | [] => prefixOfB pat []
  | c :: cs => prefixOfB pat (c :: cs) || substrB pat cs

/-- Substring test, the semantics the source author intended with
`remote_branch.contains("HEAD")` (reachable only if `str` had that method). -/
def containsSubstr (s pat : String) : Bool := substrB pat.toList s.toList

/-- Python's `str.strip()`: remove leading and trailing whitespace. -/
def pyStrip (s : String) : String :=
  ((s.toList.dropWhile Char.isWhitespace).reverse.dropWhile Char.isWhitespace).reverse.asString

/-- Splitting a character list at every occurrence of a separator; like
Python's `str.split(sep)`, the result is never empty and empty segments are
kept. -/
def splitCharsOn (sep : Char) : List Char → List (List Char)
  | [] => [[]]
  | c :: cs =>
    if c = sep then [] :: splitCharsOn sep cs
    else
      match splitCharsOn sep cs with
      | [] => [[c]]
      | p :: ps => (c :: p) :: ps

/-- Python's `s.split('\n')`. -/
def pySplitNL (s : String) : List String :=
  (splitCharsOn (Char.ofNat 10) s.toList).map List.asString

/-- Stable insertion for Python's `sorted(..., key=committed_datetime,
reverse=True)`: descending by date, original order kept on ties. -/
def insertCommitDesc (x : Commit) : List Commit → List Commit
  | [] => [x]
  | y :: l => if y.date ≤ x.date then x :: y :: l else y :: insertCommitDesc x l

/-- Stable descending sort of commits by timestamp. -/
def sortCommitsDesc : List Commit → List Commit
  | [] => []
  | x :: l => insertCommitDesc x (sortCommitsDesc l)

/-- The branch loop of `fetch_commits_from_local` (the default
`unique_commits=False` path): for every line of `git branch -r` output, strip
it, test it for "HEAD" via the (nonexistent) `str.contains` method, then
collect the branch's commits sorted descending and filtered to the window.
The attribute lookup precedes everything else in the loop body. -/
def localBranchLoop (iterCommits : String → List Commit) (startDate endDate : Int) :
    List String → Except PyError (List (String × List Commit))
  | [] => Except.ok []
  | line :: rest =>
    let remoteBranch := pyStrip line
    match pyStrGetMethod "contains" with
    | Except.error e => Except.error e
    | Except.ok _ =>
      if containsSubstr remoteBranch "HEAD" then
        localBranchLoop iterCommits startDate endDate rest
      else
        match localBranchLoop iterCommits startDate endDate rest with
        | Except.error e => Except.error e
        | Except.ok more =>
          Except.ok ((remoteBranch,
            (sortCommitsDesc (iterCommits remoteBranch)).filter (fun c =>
              decide (startDate ≤ c.date) && decide (c.date ≤ endDate))) :: more)

/-- riddlesolver/repository.py, `fetch_commits_from_local`, embedded to the
point where every execution path has either raised or produced the
branch-to-commits mapping (the subsequent author grouping is dead code: the
loop raises first, see below).  `validRepo` says whether `Repo(repo_path)`
succeeds; on `InvalidGitRepositoryError` the source re-raises `ValueError`.
`branchOutput` is the text `repo.git.branch('-r')` returns; `iterCommits` is
the oracle for `repo.iter_commits` on a branch line. -/
def fetch_commits_from_local (validRepo : Bool) (iterCommits : String → List Commit)
    (startDate endDate : Int) (branchOutput : String) :
    Except PyError (List (String × List Commit)) :=
  if validRepo then
    localBranchLoop iterCommits startDate endDate (pySplitNL branchOutput)
  else Except.error (PyError.valueError "Invalid Git repository")

/-! ### Repository cache manager (repository.py fetch_commits_from_remote) -/

/-- The externally visible operations of `fetch_commits_from_remote`, in
program order. -/
inductive RemoteAction where
  | useCached
  | removeCacheDir
  | makeCacheRoot
  | cloneRepo
  | fetchAllRefs
  | readCommits
deriving DecidableEq, Repr

/-- Errors a mirror access can surface.  The source raises GitPython's
`GitCommandError` unwrapped; the `repositoryFetchError` constructor is the
wrapper the specification's error taxonomy names, included so its absence is
statable; `typeError` is Python's `TypeError`, raised by
`timedelta(days=cache_duration)` when the configured duration is a string. -/
inductive RemoteError where
  | gitCommandError (op : String)
  | repositoryFetchError (op : String)
  | typeError (msg : String)
deriving DecidableEq, Repr

/-- riddlesolver/repository.py, `fetch_commits_from_remote`, lines 261-294,
GIVEN a numeric cache duration — the only situation in which the expiry
computation at line 264 succeeds, namely the `cache_duration = 7` int
fallback taken when the configuration does not supply the key (see
`fetch_commits_from_remote_cfg` for the configparser typing of the duration).
`mtime` is the cached directory's modification time, `ttlDays` the duration,
both in the same time unit as `now`; the source reuses the mirror iff
`mtime + ttl > now`.  The result pairs the operations performed (in order)
with the error that aborted the call, if any; injected backend failures model
clone/fetch errors. -/
def fetch_commits_from_remote (cacheExists : Bool) (mtime now ttlDays : Int)
    (cloneFails fetchFails : Bool) : List RemoteAction × Option RemoteError :=
  if cacheExists then
    if now < mtime + ttlDays then
      if fetchFails then
        ([RemoteAction.useCached], some (RemoteError.gitCommandError "fetch"))
      else
        ([RemoteAction.useCached, RemoteAction.fetchAllRefs, RemoteAction.readCommits], none)
    else
      if cloneFails then
        ([RemoteAction.removeCacheDir, RemoteAction.makeCacheRoot],
         some (RemoteError.gitCommandError "clone"))
      else if fetchFails then
        ([RemoteAction.removeCacheDir, RemoteAction.makeCacheRoot, RemoteAction.cloneRepo],
         some (RemoteError.gitCommandError "fetch"))
      else
        ([RemoteAction.removeCacheDir, RemoteAction.makeCacheRoot, RemoteAction.cloneRepo,
          RemoteAction.fetchAllRefs, RemoteAction.readCommits], none)
  else
    if cloneFails then
      ([RemoteAction.makeCacheRoot], some (RemoteError.gitCommandError "clone"))
    else if fetchFails then
      ([RemoteAction.makeCacheRoot, RemoteAction.cloneRepo],
       some (RemoteError.gitCommandError "fetch"))
    else
      ([RemoteAction.makeCacheRoot, RemoteAction.cloneRepo, RemoteAction.fetchAllRefs,
        RemoteAction.readCommits], none)

/-- riddlesolver/repository.py, `fetch_commits_from_remote` with the typing of
`cache_duration` made explicit.  Configparser's `get` yields a string — the
shipped default configuration sets `cache_duration = "7"` — or `None` when
the key is absent, and `if not cache_duration: cache_duration = 7` replaces
only the falsy values (`None`, `""`) by the int 7.  A config-supplied
duration therefore reaches `cache_timestamp + timedelta(days=cache_duration)`
(line 264) as a `str`, which raises `TypeError` on every access that finds an
existing cached directory, before any reuse/reclone decision and before any
operation is performed.  When no cached directory exists, line 264 is never
evaluated and the miss path proceeds as in the numeric case; the core is
passed an arbitrary number there, which its miss branch never reads. -/
def fetch_commits_from_remote_cfg (cacheDuration : Option String)
    (cacheExists : Bool) (mtime now : Int) (cloneFails fetchFails : Bool) :
    List RemoteAction × Option RemoteError :=
  match cacheDuration with
  | none => fetch_commits_from_remote cacheExists mtime now 7 cloneFails fetchFails
  | some s =>
    if s = "" then fetch_commits_from_remote cacheExists mtime now 7 cloneFails fetchFails
    else if cacheExists then
      ([], some (RemoteError.typeError "unsupported type for timedelta days component: str"))
    else
      fetch_commits_from_remote false mtime now 0 cloneFails fetchFails

/-! ### Argument validation (utils.py validate_arguments) -/

/-- riddlesolver/utils.py, `validate_arguments`: rejects a missing locator and
an inverted date window with `ValueError`. -/
def validate_arguments (repoPath : String) (startDate endDate : Int) :
    Except String Unit :=
  if repoPath = "" then Except.error "Repository path or URL is required."
  else if endDate < startDate then Except.error "Start date cannot be greater than end date."
  else Except.ok ()

/-- Modelled from the spec: the command-line orchestrator that wires
`validate_arguments` in front of `fetch_commits` is not part of the source
snapshot (no file under src/ calls `validate_arguments`, and the snapshot is
visibly partial: repository.py imports `utils.get_all_commits`, which no file
defines).  Per spec section 7 a malformed date window is rejected before any
I/O, so the orchestrator is modelled as: validate, and only on success perform
the repository I/O of `fetch_commits`, abstracted as the action trace the
fetch would emit. -/
def run_commit_engine (repoPath : String) (startDate endDate : Int)
    (fetchTrace : List RemoteAction) : Except String (List RemoteAction) :=
  match validate_arguments repoPath startDate endDate with
  | Except.error e => Except.error e
  | Except.ok _ => Except.ok fetchTrace

/-! ### Auxiliary observation functions and concrete inputs -/

/-- All commit shas mentioned by a group list, in order. -/
def flatShas : List Group → List String
  | [] => []
  | g :: gs => g.commit_messages.map Msg.sha ++ flatShas gs

/-- The accumulator of `find_base_branch` corresponding to a candidate of
`amended_scan`. -/
def accOfCand : Option (String × List Commit) → Option String × List Commit
  | none => (none, [])
  | some c => (some c.1, c.2)

/-- A commit with the given sha and no further data. -/
def cmOf (s : String) : Commit := ⟨s, "", "", "", 0⟩

/-- Branch listing on which the greedy base-branch scan disagrees with
overlap maximisation: branch `feat` shares one sha with `big` (which has
three commits) and two shas with `near`. -/
def lineageEx : List (String × List Commit) :=
  [("feat", [cmOf "x", cmOf "w1", cmOf "w2"]),
   ("big", [cmOf "x", cmOf "y", cmOf "z"]),
   ("near", [cmOf "w1", cmOf "w2", cmOf "q"])]

/-- Two distinct commit records carrying the same sha. -/
def shaTwinA : Commit := ⟨"s1", "m1", "", "", 0⟩

/-- Second commit record with the sha of `shaTwinA` but another message. -/
def shaTwinB : Commit := ⟨"s1", "m2", "", "", 0⟩

/-- Lineage map for the unique-commit counterexample. -/
def uniqueExMap : List (String × Option String) := [("feat", some "main")]

/-- Branch commit mapping for the unique-commit counterexample. -/
def uniqueExCommits : String → List Commit :=
  fun n => if n = "feat" then [shaTwinA] else if n = "main" then [shaTwinB] else []

/-- A primary-branch group with an empty message list. -/
def dedupExEmptyMain : Group := ⟨"main", "alice", 0, 0, []⟩

/-- A feature-branch group with one message. -/
def dedupExFeat : Group := ⟨"feat", "alice", 0, 0, [⟨"m1", "s1"⟩]⟩

/-- A second primary-branch group, with one message. -/
def dedupExOtherMain : Group := ⟨"main", "bob", 0, 0, [⟨"m2", "s2"⟩]⟩

end RiddleSolver

namespace RiddleSolver

/-! ## Helper lemmas: base-branch scan -/

theorem foldl_baseScanStep_some (bName : String) (bc : List Commit) :
    ∀ (brs : List (String × List Commit)) (acc : Option String × List Commit) (z : String),
      acc.1 = some z → ∃ w, (brs.foldl (baseScanStep bName bc) acc).1 = some w := by
  intro brs
  induction brs with
  | nil => exact fun acc z h => ⟨z, h⟩
  | cons o rest ih =>
    intro acc z h
    simp only [List.foldl_cons]
    by_cases h1 : o.1 ≠ bName
    · by_cases h2 : acc.2.length < common_commit_count bc o.2
      · exact ih _ o.1 (by simp [baseScanStep, h1, h2])
      · exact ih _ z (by simp [baseScanStep, h1, h2, h])
    · exact ih _ z (by simp [baseScanStep, h1, h])

theorem foldl_baseScanStep_none_iff (bName : String) (bc : List Commit) :
    ∀ brs : List (String × List Commit),
      ((brs.foldl (baseScanStep bName bc) (none, [])).1 = none ↔
        ∀ o ∈ brs, o.1 ≠ bName → common_commit_count bc o.2 = 0) := by
  intro brs
  induction brs with
  | nil => simp
  | cons o rest ih =>
    simp only [List.foldl_cons]
    by_cases h1 : o.1 ≠ bName
    · by_cases h2 : 0 < common_commit_count bc o.2
      · have hsel : baseScanStep bName bc (none, []) o = (some o.1, o.2) := by
          simp [baseScanStep, h1, h2]
        rw [hsel]
        constructor
        · intro hnone
          obtain ⟨w, hw⟩ := foldl_baseScanStep_some bName bc rest (some o.1, o.2) o.1 rfl
          rw [hnone] at hw
          exact Option.noConfusion hw
        · intro hall
          have := hall o (List.mem_cons_self o rest) h1
          omega
      · have hskip : baseScanStep bName bc (none, []) o = (none, []) := by
          simp [baseScanStep, h1, h2]
        rw [hskip, ih]
        constructor
        · intro hall o' ho' hne
          rcases List.mem_cons.mp ho' with rfl | hmem
          · omega
          · exact hall o' hmem hne
        · intro hall o' ho' hne
          exact hall o' (List.mem_cons_of_mem o ho') hne
    · have hskip : baseScanStep bName bc (none, []) o = (none, []) := by
        simp [baseScanStep, h1]
      rw [hskip, ih]
      constructor
      · intro hall o' ho' hne
        rcases List.mem_cons.mp ho' with rfl | hmem
        · exact absurd hne h1
        · exact hall o' hmem hne
      · intro hall o' ho' hne
        exact hall o' (List.mem_cons_of_mem o ho') hne

theorem foldl_baseScanStep_some_spec (bName : String) (bc : List Commit) :
    ∀ (brs : List (String × List Commit)) (acc : Option String × List Commit) (p : String),
      ((brs.foldl (baseScanStep bName bc) acc).1 = some p) →
      acc.1 = some p ∨
        (p ≠ bName ∧ ∃ oc, (p, oc) ∈ brs ∧ 0 < common_commit_count bc oc) := by
  intro brs
  induction brs with
  | nil => exact fun acc p h => Or.inl h
  | cons o rest ih =>
    intro acc p h
    simp only [List.foldl_cons] at h
    rcases ih _ p h with hacc | hgood
    · by_cases h1 : o.1 ≠ bName
      · by_cases h2 : acc.2.length < common_commit_count bc o.2
        · have : baseScanStep bName bc acc o = (some o.1, o.2) := by
            simp [baseScanStep, h1, h2]
          rw [this] at hacc
          have hp : o.1 = p := Option.some.inj hacc
          right
          refine ⟨hp ▸ h1, o.2, ?_, by omega⟩
          rw [← hp]
          exact List.mem_cons_self o rest
        · have : baseScanStep bName bc acc o = acc := by
            simp [baseScanStep, h1, h2]
          rw [this] at hacc
          exact Or.inl hacc
      · have : baseScanStep bName bc acc o = acc := by
          simp [baseScanStep, h1]
        rw [this] at hacc
        exact Or.inl hacc
    · exact Or.inr ⟨hgood.1, hgood.2.choose,
        List.mem_cons_of_mem o hgood.2.choose_spec.1, hgood.2.choose_spec.2⟩

theorem amended_scan_eq_foldl (bName : String) (bc : List Commit) :
    ∀ (brs : List (String × List Commit)) (cand : Option (String × List Commit)),
      amended_scan bName bc brs cand =
        (brs.foldl (baseScanStep bName bc) (accOfCand cand)).1 := by
  intro brs
  induction brs with
  | nil => intro cand; cases cand <;> rfl
  | cons o rest ih =>
    intro cand
    simp only [List.foldl_cons]
    by_cases h1 : o.1 ≠ bName
    · cases cand with
      | none =>
        by_cases h2 : 0 < common_commit_count bc o.2
        · have hstep : baseScanStep bName bc (accOfCand none) o = accOfCand (some o) := by
            simp [baseScanStep, accOfCand, h1, h2]
          rw [hstep, ← ih (some o)]
          simp only [amended_scan, if_pos h1, if_pos h2]
        · have hstep : baseScanStep bName bc (accOfCand none) o = accOfCand none := by
            simp [baseScanStep, accOfCand, h1, Nat.eq_zero_of_not_pos h2]
          rw [hstep, ← ih none]
          simp only [amended_scan, if_pos h1]
          rw [if_neg (by simpa using h2)]
      | some cur =>
        by_cases h2 : cur.2.length < common_commit_count bc o.2
        · have hstep : baseScanStep bName bc (accOfCand (some cur)) o = accOfCand (some o) := by
            simp [baseScanStep, accOfCand, h1, h2]
          rw [hstep, ← ih (some o)]
          simp only [amended_scan, if_pos h1, if_pos h2]
        · have hstep : baseScanStep bName bc (accOfCand (some cur)) o =
              accOfCand (some cur) := by
            simp [baseScanStep, accOfCand, h1, h2]
          rw [hstep, ← ih (some cur)]
          simp only [amended_scan, if_pos h1]
          rw [if_neg h2]
    · have hstep : baseScanStep bName bc (accOfCand cand) o = accOfCand cand := by
        simp [baseScanStep, h1]
      rw [hstep, ← ih cand]
      simp only [amended_scan, if_neg h1]

/-! ## Claim C1 -/

/-- C1 counterexample: on `lineageEx` the code assigns branch `feat` the
parent `big`, although `near` has strictly larger (and positive) sha overlap
with `feat`; the claim's own argmax rule (`claimed_lineage_parent`) picks
`near`.  The greedy source scan compares a candidate's overlap against the
current base branch's total commit count, not against the best overlap. -/
theorem c1_lineage_counterexample :
    get_base_branch_map lineageEx =
      [("feat", some "big"), ("big", some "feat"), ("near", some "feat")] ∧
    common_commit_count [cmOf "x", cmOf "w1", cmOf "w2"] [cmOf "w1", cmOf "w2", cmOf "q"] = 2 ∧
    common_commit_count [cmOf "x", cmOf "w1", cmOf "w2"] [cmOf "x", cmOf "y", cmOf "z"] = 1 ∧
    claimed_lineage_parent "feat" [cmOf "x", cmOf "w1", cmOf "w2"] lineageEx = some "near" := by
  decide

/-- C1 (amended): for every branch of the mapping, lineage inference scans the
other branches in input order keeping a current candidate (`amended_scan`),
replacing it exactly when a branch's sha overlap exceeds the current
candidate's total commit count; the result is `none` iff no other branch has
positive sha overlap, and any returned parent is a distinct branch of the
mapping with strictly positive overlap. -/
theorem c1_lineage_amended (brs : List (String × List Commit)) (bName : String)
    (bc : List Commit) (h : (bName, bc) ∈ brs) :
    (bName, (find_base_branch bName bc brs).1) ∈ get_base_branch_map brs ∧
    (find_base_branch bName bc brs).1 = amended_scan bName bc brs none ∧
    ((find_base_branch bName bc brs).1 = none ↔
      ∀ o ∈ brs, o.1 ≠ bName → common_commit_count bc o.2 = 0) ∧
    (∀ p, (find_base_branch bName bc brs).1 = some p →
      p ≠ bName ∧ ∃ oc, (p, oc) ∈ brs ∧ 0 < common_commit_count bc oc) := by
  refine ⟨?_, ?_, ?_, ?_⟩
  · exact List.mem_map_of_mem (fun b => (b.1, (find_base_branch b.1 b.2 brs).1)) h
  · exact (amended_scan_eq_foldl bName bc brs none).symm
  · exact foldl_baseScanStep_none_iff bName bc brs
  · intro p hp
    rcases foldl_baseScanStep_some_spec bName bc brs (none, []) p hp with habs | hgood
    · exact Option.noConfusion habs
    · exact hgood

/-- Witness for C1 (amended) at the concrete mapping `lineageEx`. -/
theorem c1_lineage_amended_witness :
    ("feat", some "big") ∈ get_base_branch_map lineageEx :=
  (c1_lineage_amended lineageEx "feat" [cmOf "x", cmOf "w1", cmOf "w2"] (by decide)).1

end RiddleSolver

namespace RiddleSolver

/-! ## Claim C3 -/

/-- C3 counterexample: with parent `main` inferred for `feat`, the only commit
of `feat` has a sha that IS present among `main`'s shas, yet it is kept,
because the source filter `commit not in base_branch_commits` compares whole
commit records, not ids. -/
theorem c3_unique_extraction_counterexample :
    get_all_unique_commits uniqueExMap uniqueExCommits = [("feat", [shaTwinA])] ∧
    shaTwinA.sha ∈ (uniqueExCommits "main").map Commit.sha := by
  decide

/-- C3 (amended): for each branch with inferred parent `p` (neither `None` nor
the falsy empty name), the extraction keeps exactly the commits of the branch
that are not structurally present in the parent's commit list (which is
id-based membership exactly when equal shas imply equal records), preserving
the branch's original order; for parent `None` — or the empty string, which
Python's `if not base_branch` also treats as absent — the branch's full list
is returned unchanged. -/
theorem c3_unique_extraction_amended (m : List (String × Option String))
    (commitsOf : String → List Commit) (b : String) (p : Option String)
    (h : (b, p) ∈ m) :
    ∃ res, (b, res) ∈ get_all_unique_commits m commitsOf ∧
      (p = none → res = commitsOf b) ∧
      (p = some "" → res = commitsOf b) ∧
      (∀ q, p = some q → q ≠ "" →
        res.Sublist (commitsOf b) ∧
        ∀ c, c ∈ res ↔ c ∈ commitsOf b ∧ c ∉ commitsOf q) := by
  cases p with
  | none =>
    refine ⟨commitsOf b, ?_, fun _ => rfl, fun he => Option.noConfusion he,
      fun q he => Option.noConfusion he⟩
    exact List.mem_map_of_mem _ h
  | some q =>
    by_cases hq : q = ""
    · subst hq
      refine ⟨commitsOf b, ?_, fun he => Option.noConfusion he, fun _ => rfl, ?_⟩
      · have := List.mem_map_of_mem
          (fun e : String × Option String =>
            match e.2 with
            | none => (e.1, commitsOf e.1)
            | some base =>
              if base = "" then (e.1, commitsOf e.1)
              else (e.1, (commitsOf e.1).filter (fun c => decide (c ∉ commitsOf base)))) h
        simpa [get_all_unique_commits] using this
      · intro q' he hne
        exact absurd (Option.some.inj he).symm hne
    · refine ⟨(commitsOf b).filter (fun c => decide (c ∉ commitsOf q)), ?_,
        fun he => Option.noConfusion he, fun he => absurd (Option.some.inj he) hq,
        ?_⟩
      · have := List.mem_map_of_mem
          (fun e : String × Option String =>
            match e.2 with
            | none => (e.1, commitsOf e.1)
            | some base =>
              if base = "" then (e.1, commitsOf e.1)
              else (e.1, (commitsOf e.1).filter (fun c => decide (c ∉ commitsOf base)))) h
        simpa [get_all_unique_commits, hq] using this
      · intro q' he hne
        have : q = q' := Option.some.inj he
        subst this
        refine ⟨List.filter_sublist _, fun c => ?_⟩
        simp [List.mem_filter]

/-- Witness for C3 (amended) at the concrete mapping `uniqueExMap`. -/
theorem c3_unique_extraction_amended_witness :
    ∃ res, ("feat", res) ∈ get_all_unique_commits uniqueExMap uniqueExCommits ∧
      ((some "main" : Option String) = none → res = uniqueExCommits "feat") ∧
      ((some "main" : Option String) = some "" → res = uniqueExCommits "feat") ∧
      (∀ q, (some "main" : Option String) = some q → q ≠ "" →
        res.Sublist (uniqueExCommits "feat") ∧
        ∀ c, c ∈ res ↔ c ∈ uniqueExCommits "feat" ∧ c ∉ uniqueExCommits q) :=
  c3_unique_extraction_amended uniqueExMap uniqueExCommits "feat" (some "main") (by decide)

/-! ## Claim C4 -/

/-- C4: every commit in the result of the repository walk of
`fetch_commits_from_repo` has its timestamp inside the requested window, and
when an author filter is supplied, its author email or author name equals the
filter string exactly (case-sensitive, no normalisation). -/
theorem c4_window_author_invariant (branches : List (String × List Commit))
    (startDate endDate : Int) (author : Option String) (c : Commit)
    (hc : c ∈ (fetch_commits_from_repo branches startDate endDate author).1) :
    (startDate ≤ c.date ∧ c.date ≤ endDate) ∧
    ∀ a, author = some a → c.authorEmail = a ∨ c.authorName = a := by
  induction branches with
  | nil => exact absurd hc (by simp [fetch_commits_from_repo])
  | cons br rest ih =>
    have hc' : c ∈ br.2.filter (fun c =>
        decide (startDate ≤ c.date) && decide (c.date ≤ endDate) &&
        (match author with
         | none => true
         | some a => decide (c.authorEmail = a) || decide (c.authorName = a))) ++
        (fetch_commits_from_repo rest startDate endDate author).1 := hc
    rcases List.mem_append.mp hc' with hf | hr
    · obtain ⟨_, hcond⟩ := List.mem_filter.mp hf
      rw [Bool.and_eq_true, Bool.and_eq_true] at hcond
      obtain ⟨⟨hd1, hd2⟩, hauth⟩ := hcond
      refine ⟨⟨of_decide_eq_true hd1, of_decide_eq_true hd2⟩, ?_⟩
      intro a ha
      subst ha
      rw [Bool.or_eq_true] at hauth
      rcases hauth with he | hn
      · exact Or.inl (of_decide_eq_true he)
      · exact Or.inr (of_decide_eq_true hn)
    · exact ih hr

/-- Witness for C4 at a concrete repository and author filter. -/
theorem c4_window_author_invariant_witness :
    ((0 : Int) ≤ (⟨"s", "m", "n", "e", 1⟩ : Commit).date ∧
      (⟨"s", "m", "n", "e", 1⟩ : Commit).date ≤ (2 : Int)) ∧
    ∀ a, (some "e" : Option String) = some a →
      (⟨"s", "m", "n", "e", 1⟩ : Commit).authorEmail = a ∨
      (⟨"s", "m", "n", "e", 1⟩ : Commit).authorName = a :=
  c4_window_author_invariant [("b", [⟨"s", "m", "n", "e", 1⟩])] 0 2 (some "e")
    ⟨"s", "m", "n", "e", 1⟩ (by decide)

/-! ## Claim C6 -/

theorem fetch_remote_numeric_trace (mtime now ttlDays : Int) :
    fetch_commits_from_remote true mtime now ttlDays false false =
      ((if now - mtime < ttlDays then
         [RemoteAction.useCached, RemoteAction.fetchAllRefs, RemoteAction.readCommits]
       else
         [RemoteAction.removeCacheDir, RemoteAction.makeCacheRoot, RemoteAction.cloneRepo,
          RemoteAction.fetchAllRefs, RemoteAction.readCommits]), none) := by
  by_cases h : now - mtime < ttlDays
  · have h' : now < mtime + ttlDays := by omega
    simp [fetch_commits_from_remote, h, h']
  · have h' : ¬now < mtime + ttlDays := by omega
    simp [fetch_commits_from_remote, h, h']

/-- C6 (code bug): the claimed TTL policy — reuse the mirror when its age
`now - mtime` is below the TTL, delete and reclone otherwise, fetching remote
refs in both cases — is the code's evident intent, but `cache_duration` comes
out of configparser as a string (the shipped default configuration sets
`cache_duration = "7"`), and `timedelta(days=cache_duration)` at
repository.py:264 then raises `TypeError` on every access that finds an
existing cached directory: no reuse, no reclone, no fetch.  The claimed
behaviour, including the strict age boundary, happens only on the int-7
fallback taken when the configuration omits the key (second conjunct). -/
theorem c6_cache_ttl_policy (mtime now : Int) :
    (∀ s, s ≠ "" →
      fetch_commits_from_remote_cfg (some s) true mtime now false false =
        ([], some (RemoteError.typeError
          "unsupported type for timedelta days component: str"))) ∧
    fetch_commits_from_remote_cfg none true mtime now false false =
      ((if now - mtime < (7 : Int) then
         [RemoteAction.useCached, RemoteAction.fetchAllRefs, RemoteAction.readCommits]
       else
         [RemoteAction.removeCacheDir, RemoteAction.makeCacheRoot, RemoteAction.cloneRepo,
          RemoteAction.fetchAllRefs, RemoteAction.readCommits]), none) := by
  constructor
  · intro s hs
    show (if s = "" then fetch_commits_from_remote true mtime now 7 false false
      else if (true : Bool) then
        ([], some (RemoteError.typeError "unsupported type for timedelta days component: str"))
      else fetch_commits_from_remote false mtime now 0 false false) = _
    rw [if_neg hs]
    rfl
  · show fetch_commits_from_remote true mtime now 7 false false = _
    exact fetch_remote_numeric_trace mtime now 7

/-- Witness for C6 at the shipped default configuration value and a concrete
fresh mirror. -/
theorem c6_cache_ttl_policy_witness :
    fetch_commits_from_remote_cfg (some "7") true 0 3 false false =
      ([], some (RemoteError.typeError
        "unsupported type for timedelta days component: str")) :=
  (c6_cache_ttl_policy 0 3).1 "7" (by decide)

/-! ## Claim C7 -/

theorem splitCharsOn_ne_nil (sep : Char) : ∀ l : List Char, splitCharsOn sep l ≠ [] := by
  intro l
  induction l with
  | nil => simp [splitCharsOn]
  | cons c cs ih =>
    simp only [splitCharsOn]
    split
    · simp
    · split
      · simp
      · simp

theorem pySplitNL_ne_nil (s : String) : pySplitNL s ≠ [] := by
  simp only [pySplitNL, ne_eq, List.map_eq_nil_iff]
  exact splitCharsOn_ne_nil _ _

theorem localBranchLoop_raises (iterCommits : String → List Commit)
    (startDate endDate : Int) :
    ∀ lines : List String, lines ≠ [] →
      localBranchLoop iterCommits startDate endDate lines =
        Except.error (PyError.attributeError "str object has no attribute contains") := by
  intro lines h
  match lines with
  | [] => exact absurd rfl h
  | l :: rest => rfl

/-- C7 (code bug): for an invalid path the local fetch does fail with the
invalid-repository error (re-raised as `ValueError`), but for EVERY valid
repository it also raises: the loop over `git branch -r` lines evaluates
`remote_branch.contains("HEAD")`, and Python's `str` has no `contains`
attribute, so the first line raises `AttributeError` before any result is
built — contradicting the claim that valid repositories return without
error. -/
theorem c7_local_fetch_attribute_error :
    (∀ (iterCommits : String → List Commit) (startDate endDate : Int)
        (branchOutput : String),
      fetch_commits_from_local false iterCommits startDate endDate branchOutput =
        Except.error (PyError.valueError "Invalid Git repository")) ∧
    (∀ (iterCommits : String → List Commit) (startDate endDate : Int)
        (branchOutput : String),
      fetch_commits_from_local true iterCommits startDate endDate branchOutput =
        Except.error (PyError.attributeError "str object has no attribute contains")) := by
  constructor
  · intro itc s e out; rfl
  · intro itc s e out
    show localBranchLoop itc s e (pySplitNL out) = _
    exact localBranchLoop_raises itc s e _ (pySplitNL_ne_nil out)

/-! ## Claim C8 -/

/-- C8 counterexample: at a concrete miss with a failing clone, the error that
propagates is the raw git command error, not the specified
`RepositoryFetchError` wrapper, and no directory removal happens before it
propagates — the source has no try/except around `Repo.clone_from` and no
cleanup. -/
theorem c8_fetch_failure_counterexample :
    fetch_commits_from_remote false 0 0 7 true false =
      ([RemoteAction.makeCacheRoot], some (RemoteError.gitCommandError "clone")) ∧
    RemoteAction.removeCacheDir ∉ [RemoteAction.makeCacheRoot] := by
  exact ⟨rfl, by decide⟩

/-- C8 (amended): every failure of the mirror access propagates as the raw
underlying git command error (never wrapped into a `RepositoryFetchError`),
and when no cached directory pre-existed, no directory removal is performed at
all — in particular none before a clone failure propagates. -/
theorem c8_fetch_failure_amended (cacheExists : Bool) (mtime now ttlDays : Int)
    (cloneFails fetchFails : Bool) :
    (∀ e, (fetch_commits_from_remote cacheExists mtime now ttlDays cloneFails fetchFails).2 =
        some e → ∃ op, e = RemoteError.gitCommandError op) ∧
    (cacheExists = false →
      RemoteAction.removeCacheDir ∉
        (fetch_commits_from_remote cacheExists mtime now ttlDays cloneFails fetchFails).1) := by
  constructor
  · intro e he
    revert he
    unfold fetch_commits_from_remote
    cases cacheExists <;> cases cloneFails <;> cases fetchFails <;> split_ifs <;> intro he <;>
      first
        | exact he.elim
        | exact Option.noConfusion he
        | exact ⟨"clone", (Option.some.inj he).symm⟩
        | exact ⟨"fetch", (Option.some.inj he).symm⟩
  · intro hce
    subst hce
    unfold fetch_commits_from_remote
    cases cloneFails <;> cases fetchFails <;> simp

/-- Witness for C8 (amended) at the concrete failing-clone state. -/
theorem c8_fetch_failure_amended_witness :
    (∃ op, RemoteError.gitCommandError "clone" = RemoteError.gitCommandError op) ∧
    RemoteAction.removeCacheDir ∉ (fetch_commits_from_remote false 0 0 7 true false).1 :=
  ⟨(c8_fetch_failure_amended false 0 0 7 true false).1 (RemoteError.gitCommandError "clone") rfl,
   (c8_fetch_failure_amended false 0 0 7 true false).2 rfl⟩

/-! ## Claim C9 -/

/-- C9: a request whose window has start strictly after end is rejected by the
validation step with the date-window `ValueError`, and the engine — modelled
from the spec as validating before fetching, see `run_commit_engine` —
performs none of the repository I/O actions for such a request. -/
theorem c9_validation_before_io (repoPath : String) (startDate endDate : Int)
    (fetchTrace : List RemoteAction) (h1 : repoPath ≠ "") (h2 : endDate < startDate) :
    validate_arguments repoPath startDate endDate =
      Except.error "Start date cannot be greater than end date." ∧
    run_commit_engine repoPath startDate endDate fetchTrace =
      Except.error "Start date cannot be greater than end date." := by
  have hv : validate_arguments repoPath startDate endDate =
      Except.error "Start date cannot be greater than end date." := by
    unfold validate_arguments
    rw [if_neg h1, if_pos h2]
  refine ⟨hv, ?_⟩
  unfold run_commit_engine
  rw [hv]

/-- Witness for C9 at a concrete inverted window. -/
theorem c9_validation_before_io_witness :
    validate_arguments "/tmp/repo" 5 3 =
      Except.error "Start date cannot be greater than end date." ∧
    run_commit_engine "/tmp/repo" 5 3 [RemoteAction.cloneRepo] =
      Except.error "Start date cannot be greater than end date." :=
  c9_validation_before_io "/tmp/repo" 5 3 [RemoteAction.cloneRepo] (by decide) (by decide)

end RiddleSolver

namespace RiddleSolver

/-! ## Helper lemmas: the Python string order and the dedup sort key -/

theorem strLtAux_trans : ∀ (a b c : List Char),
    strLtAux a b = true → strLtAux b c = true → strLtAux a c = true := by
  intro a
  induction a with
  | nil =>
    intro b c h1 h2
    cases b with
    | nil => exact absurd h1 (by simp [strLtAux])
    | cons q bs =>
      cases c with
      | nil => exact absurd h2 (by simp [strLtAux])
      | cons r cs => simp [strLtAux]
  | cons p as ih =>
    intro b c h1 h2
    cases b with
    | nil => exact absurd h1 (by simp [strLtAux])
    | cons q bs =>
      cases c with
      | nil => exact absurd h2 (by simp [strLtAux])
      | cons r cs =>
        simp only [strLtAux] at h1 h2 ⊢
        by_cases hpq : p < q
        · by_cases hqr : q < r
          · rw [if_pos (lt_trans hpq hqr)]
          · rw [if_neg hqr] at h2
            by_cases hrq : r < q
            · rw [if_pos hrq] at h2
              exact absurd h2 (by simp)
            · have hqr' : q = r := le_antisymm (not_lt.mp hrq) (not_lt.mp hqr)
              rw [if_pos (hqr' ▸ hpq)]
        · rw [if_neg hpq] at h1
          by_cases hqp : q < p
          · rw [if_pos hqp] at h1
            exact absurd h1 (by simp)
          · rw [if_neg hqp] at h1
            have hpq' : p = q := le_antisymm (not_lt.mp hqp) (not_lt.mp hpq)
            by_cases hqr : q < r
            · rw [if_pos (hpq' ▸ hqr : p < r)]
            · rw [if_neg hqr] at h2
              by_cases hrq : r < q
              · rw [if_pos hrq] at h2
                exact absurd h2 (by simp)
              · rw [if_neg hrq] at h2
                have hqr' : q = r := le_antisymm (not_lt.mp hrq) (not_lt.mp hqr)
                have hpr : ¬p < r := by rw [hpq', hqr']; exact lt_irrefl r
                have hrp : ¬r < p := by rw [hpq', hqr']; exact lt_irrefl r
                rw [if_neg hpr, if_neg hrp]
                exact ih bs cs h1 h2

theorem strLtAux_false_antisymm : ∀ a b : List Char,
    strLtAux a b = false → strLtAux b a = false → a = b := by
  intro a
  induction a with
  | nil =>
    intro b h1 _
    cases b with
    | nil => rfl
    | cons q bs => exact absurd h1 (by simp [strLtAux])
  | cons p as ih =>
    intro b h1 h2
    cases b with
    | nil => exact absurd h2 (by simp [strLtAux])
    | cons q bs =>
      simp only [strLtAux] at h1 h2
      by_cases hpq : p < q
      · rw [if_pos hpq] at h1
        exact absurd h1 (by simp)
      · by_cases hqp : q < p
        · rw [if_pos hqp] at h2
          exact absurd h2 (by simp)
        · have hpq' : p = q := le_antisymm (not_lt.mp hqp) (not_lt.mp hpq)
          rw [if_neg hpq, if_neg hqp] at h1
          rw [if_neg hqp, if_neg hpq] at h2
          rw [hpq', ih bs h1 h2]

theorem strLt_false_eq (a b : String) (h1 : strLt a b = false) (h2 : strLt b a = false) :
    a = b :=
  String.toList_inj.mp (strLtAux_false_antisymm _ _ h1 h2)

theorem keyLE_eq_true_iff (k₁ k₂ : String × Bool) :
    keyLE k₁ k₂ = true ↔
      (strLt k₁.1 k₂.1 = true ∨ (k₁.1 = k₂.1 ∧ (k₁.2 = false ∨ k₂.2 = true))) := by
  simp only [keyLE, Bool.or_eq_true, Bool.and_eq_true, decide_eq_true_eq, Bool.not_eq_true']

theorem keyLE_total (k₁ k₂ : String × Bool) : keyLE k₁ k₂ = true ∨ keyLE k₂ k₁ = true := by
  cases hs : strLt k₁.1 k₂.1 with
  | true => exact Or.inl ((keyLE_eq_true_iff _ _).mpr (Or.inl hs))
  | false =>
    cases hs' : strLt k₂.1 k₁.1 with
    | true => exact Or.inr ((keyLE_eq_true_iff _ _).mpr (Or.inl hs'))
    | false =>
      have he : k₁.1 = k₂.1 := strLt_false_eq _ _ hs hs'
      cases hb : k₁.2 with
      | false => exact Or.inl ((keyLE_eq_true_iff _ _).mpr (Or.inr ⟨he, Or.inl hb⟩))
      | true => exact Or.inr ((keyLE_eq_true_iff _ _).mpr (Or.inr ⟨he.symm, Or.inr hb⟩))

theorem strLt_trans (a b c : String) (h1 : strLt a b = true) (h2 : strLt b c = true) :
    strLt a c = true :=
  strLtAux_trans _ _ _ h1 h2

theorem keyLE_trans (k₁ k₂ k₃ : String × Bool)
    (h1 : keyLE k₁ k₂ = true) (h2 : keyLE k₂ k₃ = true) : keyLE k₁ k₃ = true := by
  rw [keyLE_eq_true_iff] at h1 h2 ⊢
  rcases h1 with hlt1 | ⟨he1, hb1⟩
  · rcases h2 with hlt2 | ⟨he2, _⟩
    · exact Or.inl (strLt_trans _ _ _ hlt1 hlt2)
    · exact Or.inl (he2 ▸ hlt1)
  · rcases h2 with hlt2 | ⟨he2, hb2⟩
    · exact Or.inl (he1 ▸ hlt2)
    · refine Or.inr ⟨he1.trans he2, ?_⟩
      rcases hb1 with hb1 | hb1
      · exact Or.inl hb1
      · rcases hb2 with hb2 | hb2
        · rw [hb1] at hb2
          exact absurd hb2 (by simp)
        · exact Or.inr hb2

theorem gLE_total (a b : Group) : gLE a b = true ∨ gLE b a = true :=
  keyLE_total _ _

theorem gLE_trans (a b c : Group) (h1 : gLE a b = true) (h2 : gLE b c = true) :
    gLE a c = true :=
  keyLE_trans _ _ _ h1 h2

/-! ## Helper lemmas: the stable sort -/

theorem mem_insertGroup (x z : Group) : ∀ l, z ∈ insertGroup x l ↔ z = x ∨ z ∈ l := by
  intro l
  induction l with
  | nil => simp [insertGroup]
  | cons y l ih =>
    simp only [insertGroup]
    split
    · simp [List.mem_cons]
    · simp only [List.mem_cons, ih]
      tauto

theorem insertGroup_perm (x : Group) : ∀ l, List.Perm (insertGroup x l) (x :: l) := by
  intro l
  induction l with
  | nil => exact List.Perm.refl _
  | cons y l ih =>
    simp only [insertGroup]
    split
    · exact List.Perm.refl _
    · exact (List.Perm.cons y ih).trans (List.Perm.swap x y l)

theorem sortGroups_perm : ∀ l, List.Perm (sortGroups l) l := by
  intro l
  induction l with
  | nil => exact List.Perm.refl _
  | cons x l ih => exact (insertGroup_perm x (sortGroups l)).trans (List.Perm.cons x ih)

theorem pairwise_insertGroup (x : Group) :
    ∀ l, l.Pairwise (fun a b => gLE a b = true) →
      (insertGroup x l).Pairwise (fun a b => gLE a b = true) := by
  intro l
  induction l with
  | nil => intro _; simp [insertGroup]
  | cons y l ih =>
    intro hp
    rw [List.pairwise_cons] at hp
    obtain ⟨hy, hl⟩ := hp
    simp only [insertGroup]
    split
    · rename_i hxy
      rw [List.pairwise_cons]
      refine ⟨?_, List.pairwise_cons.mpr ⟨hy, hl⟩⟩
      intro z hz
      rcases List.mem_cons.mp hz with rfl | hzl
      · exact hxy
      · exact gLE_trans x y z hxy (hy z hzl)
    · rename_i hxy
      rw [List.pairwise_cons]
      refine ⟨?_, ih hl⟩
      intro z hz
      rcases (mem_insertGroup x z l).mp hz with hzx | hzl
      · rw [hzx]
        rcases gLE_total x y with h | h
        · exact absurd h hxy
        · exact h
      · exact hy z hzl

theorem sortGroups_pairwise : ∀ l, (sortGroups l).Pairwise (fun a b => gLE a b = true) := by
  intro l
  induction l with
  | nil => simp [sortGroups]
  | cons x l ih => exact pairwise_insertGroup x (sortGroups l) ih

theorem sortGroups_sorted_id : ∀ l, l.Pairwise (fun a b => gLE a b = true) →
    sortGroups l = l := by
  intro l
  induction l with
  | nil => intro _; rfl
  | cons x l ih =>
    intro hp
    rw [List.pairwise_cons] at hp
    obtain ⟨hx, hl⟩ := hp
    show insertGroup x (sortGroups l) = x :: l
    rw [ih hl]
    cases l with
    | nil => rfl
    | cons y l' =>
      show insertGroup x (y :: l') = x :: y :: l'
      simp only [insertGroup]
      rw [if_pos (hx y (List.mem_cons_self y l'))]

/-! ## Helper lemmas: the main-group promotion -/

theorem extractFirstMain_none_iff : ∀ l : List Group,
    extractFirstMain l = none ↔ ∀ g ∈ l, isMainG g = false := by
  intro l
  induction l with
  | nil => simp [extractFirstMain]
  | cons g gs ih =>
    simp only [extractFirstMain]
    by_cases hg : isMainG g = true
    · rw [if_pos hg]
      constructor
      · intro hcontra
        exact Option.noConfusion hcontra
      · intro hall
        have := hall g (List.mem_cons_self g gs)
        rw [hg] at this
        exact absurd this (by simp)
    · have hg' : isMainG g = false := by revert hg; cases isMainG g <;> simp
      rw [if_neg hg]
      cases hrec : extractFirstMain gs with
      | none =>
        simp only
        constructor
        · intro _ g' hm
          rcases List.mem_cons.mp hm with rfl | hm'
          · exact hg'
          · exact (ih.mp hrec) g' hm'
        · intro _
          trivial
      | some pr =>
        obtain ⟨x, rest⟩ := pr
        simp only
        constructor
        · intro hcontra
          exact Option.noConfusion hcontra
        · intro hall
          have hnone : extractFirstMain gs = none :=
            ih.mpr (fun g' hm => hall g' (List.mem_cons_of_mem g hm))
          rw [hnone] at hrec
          exact Option.noConfusion hrec

theorem extractFirstMain_some_spec : ∀ (l : List Group) (x : Group) (rest : List Group),
    extractFirstMain l = some (x, rest) →
    ∃ pre post, l = pre ++ x :: post ∧ rest = pre ++ post ∧
      (∀ g ∈ pre, isMainG g = false) ∧ isMainG x = true := by
  intro l
  induction l with
  | nil => intro x rest h; exact Option.noConfusion h
  | cons g gs ih =>
    intro x rest h
    simp only [extractFirstMain] at h
    by_cases hg : isMainG g = true
    · rw [if_pos hg] at h
      have hpair := Option.some.inj h
      have h1 : g = x := congrArg Prod.fst hpair
      have h2 : gs = rest := congrArg Prod.snd hpair
      exact ⟨[], gs, by rw [← h1]; rfl, by rw [← h2]; rfl, by simp, h1 ▸ hg⟩
    · have hg' : isMainG g = false := by revert hg; cases isMainG g <;> simp
      rw [if_neg hg] at h
      cases hrec : extractFirstMain gs with
      | none =>
        rw [hrec] at h
        exact Option.noConfusion h
      | some pr =>
        obtain ⟨x', rest'⟩ := pr
        rw [hrec] at h
        have hpair := Option.some.inj h
        have h1 : x' = x := congrArg Prod.fst hpair
        have h2 : g :: rest' = rest := congrArg Prod.snd hpair
        obtain ⟨pre, post, hl, hr, hpre, hmain⟩ := ih x' rest' hrec
        refine ⟨g :: pre, post, ?_, ?_, ?_, h1 ▸ hmain⟩
        · rw [hl, h1]
          rfl
        · rw [← h2, hr]
          rfl
        · intro g' hm
          rcases List.mem_cons.mp hm with rfl | hm'
          · exact hg'
          · exact hpre g' hm'

theorem extract_insertGroup (x : Group) : ∀ t : List Group, isMainG x = true →
    (∀ y ∈ t, isMainG y = true → gLE x y = true) →
    extractFirstMain (insertGroup x t) = some (x, t) := by
  intro t
  induction t with
  | nil =>
    intro hx _
    simp [insertGroup, extractFirstMain, hx]
  | cons y t ih =>
    intro hx hbad
    simp only [insertGroup]
    split
    · rename_i hxy
      show extractFirstMain (x :: y :: t) = _
      simp [extractFirstMain, hx]
    · rename_i hxy
      have hy : isMainG y = false := by
        by_cases hym : isMainG y = true
        · exact absurd (hbad y (List.mem_cons_self y t) hym) hxy
        · revert hym; cases isMainG y <;> simp
      show extractFirstMain (y :: insertGroup x t) = _
      simp only [extractFirstMain]
      rw [if_neg (by simp [hy])]
      rw [ih hx (fun z hz hmz => hbad z (List.mem_cons_of_mem y hz) hmz)]

theorem moveMainFront_perm : ∀ l : List Group, List.Perm (moveMainFront l) l := by
  intro l
  unfold moveMainFront
  cases h : extractFirstMain l with
  | none => exact List.Perm.refl l
  | some pr =>
    obtain ⟨x, rest⟩ := pr
    obtain ⟨pre, post, hl, hr, _, _⟩ := extractFirstMain_some_spec l x rest h
    rw [hl, hr]
    exact List.perm_middle.symm

/-! ## Helper lemmas: the dedup pass -/

theorem flatShas_perm : ∀ {l₁ l₂ : List Group}, List.Perm l₁ l₂ →
    List.Perm (flatShas l₁) (flatShas l₂) := by
  intro l₁ l₂ h
  induction h with
  | nil => exact List.Perm.refl _
  | cons g _ ih =>
    show List.Perm (g.commit_messages.map Msg.sha ++ _) (g.commit_messages.map Msg.sha ++ _)
    exact List.Perm.append_left _ ih
  | swap g₁ g₂ l =>
    show List.Perm
      (g₂.commit_messages.map Msg.sha ++ (g₁.commit_messages.map Msg.sha ++ flatShas l))
      (g₁.commit_messages.map Msg.sha ++ (g₂.commit_messages.map Msg.sha ++ flatShas l))
    rw [← List.append_assoc, ← List.append_assoc]
    exact List.Perm.append_right _ (List.perm_append_comm)
  | trans _ _ ih₁ ih₂ => exact ih₁.trans ih₂

theorem filterMsgs_snd_mem : ∀ (ms : List Msg) (seen : List String) (s : String),
    s ∈ (filterMsgs seen ms).2 ↔ s ∈ seen ∨ s ∈ ms.map Msg.sha := by
  intro ms
  induction ms with
  | nil => intro seen s; simp [filterMsgs]
  | cons m ms ih =>
    intro seen s
    simp only [filterMsgs]
    split
    · rename_i hmem
      rw [ih]
      simp only [List.map_cons, List.mem_cons]
      constructor
      · rintro (h | h)
        · exact Or.inl h
        · exact Or.inr (Or.inr h)
      · rintro (h | h | h)
        · exact Or.inl h
        · exact Or.inl (h ▸ hmem)
        · exact Or.inr h
    · rename_i hmem
      show s ∈ (filterMsgs (m.sha :: seen) ms).2 ↔ _
      rw [ih]
      simp only [List.map_cons, List.mem_cons]
      tauto

theorem filterMsgs_fst_mem : ∀ (ms : List Msg) (seen : List String) (s : String),
    s ∈ (filterMsgs seen ms).1.map Msg.sha ↔ s ∈ ms.map Msg.sha ∧ s ∉ seen := by
  intro ms
  induction ms with
  | nil => intro seen s; simp [filterMsgs]
  | cons m ms ih =>
    intro seen s
    simp only [filterMsgs]
    split
    · rename_i hmem
      rw [ih]
      simp only [List.map_cons, List.mem_cons]
      constructor
      · rintro ⟨h, hns⟩
        exact ⟨Or.inr h, hns⟩
      · rintro ⟨h | h, hns⟩
        · exact absurd (h ▸ hmem) hns
        · exact ⟨h, hns⟩
    · rename_i hmem
      show s ∈ (m :: (filterMsgs (m.sha :: seen) ms).1).map Msg.sha ↔ _
      simp only [List.map_cons, List.mem_cons]
      rw [ih]
      simp only [List.mem_cons]
      constructor
      · rintro (h | ⟨h1, h2⟩)
        · subst h
          exact ⟨Or.inl rfl, hmem⟩
        · exact ⟨Or.inr h1, fun hc => h2 (Or.inr hc)⟩
      · rintro ⟨h | h, hns⟩
        · exact Or.inl h
        · by_cases he : s = m.sha
          · exact Or.inl he
          · exact Or.inr ⟨h, fun hc => (by tauto : False)⟩

theorem filterMsgs_fst_nodup : ∀ (ms : List Msg) (seen : List String),
    ((filterMsgs seen ms).1.map Msg.sha).Nodup := by
  intro ms
  induction ms with
  | nil => intro seen; simp [filterMsgs]
  | cons m ms ih =>
    intro seen
    simp only [filterMsgs]
    split
    · exact ih seen
    · rename_i hmem
      show ((m :: (filterMsgs (m.sha :: seen) ms).1).map Msg.sha).Nodup
      simp only [List.map_cons]
      rw [List.nodup_cons]
      refine ⟨?_, ih (m.sha :: seen)⟩
      intro hc
      have := (filterMsgs_fst_mem ms (m.sha :: seen) m.sha).mp hc
      exact this.2 (List.mem_cons_self m.sha seen)

theorem filterMsgs_keeps : ∀ (ms : List Msg) (seen : List String),
    (ms.map Msg.sha).Nodup → (∀ s ∈ ms.map Msg.sha, s ∉ seen) →
    (filterMsgs seen ms).1 = ms := by
  intro ms
  induction ms with
  | nil => intro seen _ _; rfl
  | cons m ms ih =>
    intro seen hd hs
    simp only [List.map_cons, List.nodup_cons] at hd
    obtain ⟨hm, hd'⟩ := hd
    simp only [filterMsgs]
    rw [if_neg (hs m.sha (by simp))]
    show m :: (filterMsgs (m.sha :: seen) ms).1 = m :: ms
    rw [ih (m.sha :: seen) hd' ?_]
    intro s hmem
    simp only [List.mem_cons]
    push_neg
    exact ⟨fun he => hm (he ▸ hmem), hs s (by simp [hmem])⟩

theorem markPass_hdr : ∀ (gs : List Group) (seen : List String),
    (markPass seen gs).map hdr = gs.map hdr := by
  intro gs
  induction gs with
  | nil => intro seen; rfl
  | cons g gs ih =>
    intro seen
    show hdr _ :: (markPass _ gs).map hdr = hdr g :: gs.map hdr
    rw [ih]
    rfl

theorem markPass_flat_mem : ∀ (gs : List Group) (seen : List String) (s : String),
    s ∈ flatShas (markPass seen gs) ↔ s ∈ flatShas gs ∧ s ∉ seen := by
  intro gs
  induction gs with
  | nil => intro seen s; simp [markPass, flatShas]
  | cons g gs ih =>
    intro seen s
    show s ∈ (filterMsgs seen g.commit_messages).1.map Msg.sha ++
        flatShas (markPass (filterMsgs seen g.commit_messages).2 gs) ↔
      s ∈ g.commit_messages.map Msg.sha ++ flatShas gs ∧ s ∉ seen
    rw [List.mem_append, List.mem_append, ih, filterMsgs_fst_mem, filterMsgs_snd_mem]
    tauto

theorem markPass_flat_nodup : ∀ (gs : List Group) (seen : List String),
    (flatShas (markPass seen gs)).Nodup := by
  intro gs
  induction gs with
  | nil => intro seen; simp [markPass, flatShas]
  | cons g gs ih =>
    intro seen
    show ((filterMsgs seen g.commit_messages).1.map Msg.sha ++
        flatShas (markPass (filterMsgs seen g.commit_messages).2 gs)).Nodup
    rw [List.nodup_append]
    refine ⟨filterMsgs_fst_nodup _ _, ih _, ?_⟩
    intro s hs1 hs2
    have h1 := (filterMsgs_fst_mem g.commit_messages seen s).mp hs1
    have h2 := (markPass_flat_mem gs (filterMsgs seen g.commit_messages).2 s).mp hs2
    exact h2.2 ((filterMsgs_snd_mem g.commit_messages seen s).mpr (Or.inr h1.1))

theorem markPass_keeps : ∀ (gs : List Group) (seen : List String),
    (flatShas gs).Nodup → (∀ s ∈ flatShas gs, s ∉ seen) → markPass seen gs = gs := by
  intro gs
  induction gs with
  | nil => intro seen _ _; rfl
  | cons g gs ih =>
    intro seen hd hs
    have hflat : flatShas (g :: gs) = g.commit_messages.map Msg.sha ++ flatShas gs := rfl
    rw [hflat, List.nodup_append] at hd
    obtain ⟨hd1, hd2, hdisj⟩ := hd
    have hs1 : ∀ s ∈ g.commit_messages.map Msg.sha, s ∉ seen := by
      intro s hm
      exact hs s (by rw [hflat]; exact List.mem_append_left _ hm)
    have hkeep : (filterMsgs seen g.commit_messages).1 = g.commit_messages :=
      filterMsgs_keeps _ _ hd1 hs1
    show ({ g with commit_messages := (filterMsgs seen g.commit_messages).1 } ::
        markPass (filterMsgs seen g.commit_messages).2 gs) = g :: gs
    rw [hkeep]
    have hrest : markPass (filterMsgs seen g.commit_messages).2 gs = gs := by
      refine ih _ hd2 ?_
      intro s hm
      rw [filterMsgs_snd_mem]
      push_neg
      refine ⟨hs s (by rw [hflat]; exact List.mem_append_right _ hm), ?_⟩
      intro hc
      exact hdisj hc hm
    rw [hrest]

theorem flatShas_filter_nonempty : ∀ gs : List Group,
    flatShas (gs.filter (fun g => !g.commit_messages.isEmpty)) = flatShas gs := by
  intro gs
  induction gs with
  | nil => rfl
  | cons g gs ih =>
    rw [List.filter_cons]
    by_cases h : g.commit_messages.isEmpty
    · have hmsgs : g.commit_messages = [] := List.isEmpty_iff.mp h
      rw [if_neg (by simp [h])]
      show flatShas (gs.filter _) = g.commit_messages.map Msg.sha ++ flatShas gs
      rw [hmsgs, ih]
      rfl
    · rw [if_pos (by simp [h])]
      show g.commit_messages.map Msg.sha ++ flatShas (gs.filter _) =
        g.commit_messages.map Msg.sha ++ flatShas gs
      rw [ih]

end RiddleSolver

namespace RiddleSolver

/-! ## Helper lemmas: header transfer between a list and its dedup image -/

theorem pairwise_of_hdr_eq {l₁ l₂ : List Group} (he : l₁.map hdr = l₂.map hdr)
    (hp : l₁.Pairwise (fun a b => gLE a b = true)) :
    l₂.Pairwise (fun a b => gLE a b = true) := by
  have h1 : (l₁.map hdr).Pairwise (fun a b => hdrLE a b = true) :=
    (List.pairwise_map).mpr hp
  rw [he] at h1
  exact (List.pairwise_map).mp h1

theorem mainfree_of_hdr_eq {l₁ l₂ : List Group} (he : l₁.map hdr = l₂.map hdr)
    (hm : ∀ g ∈ l₁, isMainG g = false) : ∀ g ∈ l₂, isMainG g = false := by
  intro g hg
  have hmem : hdr g ∈ l₂.map hdr := List.mem_map_of_mem hdr hg
  rw [← he] at hmem
  obtain ⟨g', hg', hgg⟩ := List.mem_map.mp hmem
  have hb : g'.branch = g.branch := congrArg Prod.fst hgg
  have := hm g' hg'
  show decide (g.branch = "main") = false
  rw [← hb]
  exact this

theorem badfree_of_hdr_eq {x : Group} {l₁ l₂ : List Group}
    (he : l₁.map hdr = l₂.map hdr)
    (hb : ∀ y ∈ l₁, isMainG y = true → gLE x y = true) :
    ∀ y ∈ l₂, isMainG y = true → gLE x y = true := by
  intro y hy hym
  have hmem : hdr y ∈ l₂.map hdr := List.mem_map_of_mem hdr hy
  rw [← he] at hmem
  obtain ⟨y', hy', hyy⟩ := List.mem_map.mp hmem
  have hbr : y'.branch = y.branch := congrArg Prod.fst hyy
  have hym' : isMainG y' = true := by
    show decide (y'.branch = "main") = true
    rw [hbr]
    exact hym
  have := hb y' hy' hym'
  show hdrLE (hdr x) (hdr y) = true
  rw [← hyy]
  exact this

/-! ## Claim C2 -/

/-- C2: after `remove_duplicated_commits`, no sha occurs twice across the
whole output (in particular never in two different groups), and the set of
shas of the output equals the set of shas of the input — each distinct input
sha is kept exactly once, only the surplus duplicate occurrences are
removed. -/
theorem c2_dedup_id_conservation (l : List Group) :
    (flatShas (remove_duplicated_commits l)).Nodup ∧
    ∀ s, s ∈ flatShas (remove_duplicated_commits l) ↔ s ∈ flatShas l := by
  have harr : List.Perm (moveMainFront (sortGroups l)) l :=
    (moveMainFront_perm (sortGroups l)).trans (sortGroups_perm l)
  have hflat : List.Perm (flatShas (moveMainFront (sortGroups l))) (flatShas l) :=
    flatShas_perm harr
  have heq : flatShas (remove_duplicated_commits l) =
      flatShas (markPass [] (moveMainFront (sortGroups l))) := by
    show flatShas ((markPass [] (moveMainFront (sortGroups l))).filter
      (fun g => !g.commit_messages.isEmpty)) = _
    exact flatShas_filter_nonempty _
  constructor
  · rw [heq]
    exact markPass_flat_nodup _ _
  · intro s
    rw [heq, markPass_flat_mem]
    simp only [List.not_mem_nil, not_false_iff, and_true]
    exact hflat.mem_iff

end RiddleSolver

namespace RiddleSolver

/-! ## Claim C5 -/

/-- C5 counterexample: with an empty-messaged `main` group present, the first
application promotes and then drops that group, and the second application
promotes the OTHER `main` group to the front, changing the group order — so
deduplicate applied to its own output does not return it unchanged. -/
theorem c5_dedup_idempotent_counterexample :
    remove_duplicated_commits (remove_duplicated_commits
        [dedupExEmptyMain, dedupExFeat, dedupExOtherMain]) ≠
      remove_duplicated_commits [dedupExEmptyMain, dedupExFeat, dedupExOtherMain] := by
  decide

/-- C5 (amended): `remove_duplicated_commits` is idempotent on every input all
of whose groups carry a nonempty commit-message list (as all groups produced
by the fetch stage do); only an input containing an empty-messaged
primary-branch group can change between the first and second application. -/
theorem c5_dedup_idempotent_amended (l : List Group)
    (h : ∀ g ∈ l, g.commit_messages ≠ []) :
    remove_duplicated_commits (remove_duplicated_commits l) =
      remove_duplicated_commits l := by
  have hsp : (sortGroups l).Pairwise (fun a b => gLE a b = true) := sortGroups_pairwise l
  cases hE : extractFirstMain (sortGroups l) with
  | none =>
    have harr : moveMainFront (sortGroups l) = sortGroups l := by
      unfold moveMainFront
      rw [hE]
    have hnm : ∀ g ∈ sortGroups l, isMainG g = false :=
      (extractFirstMain_none_iff (sortGroups l)).mp hE
    have hhdr : (markPass [] (sortGroups l)).map hdr = (sortGroups l).map hdr :=
      markPass_hdr (sortGroups l) []
    have hps : (markPass [] (sortGroups l)).Pairwise (fun a b => gLE a b = true) :=
      pairwise_of_hdr_eq hhdr.symm hsp
    have hpnm : ∀ g ∈ markPass [] (sortGroups l), isMainG g = false :=
      mainfree_of_hdr_eq hhdr.symm hnm
    have hout : remove_duplicated_commits l =
        (markPass [] (sortGroups l)).filter (fun g => !g.commit_messages.isEmpty) := by
      show (markPass [] (moveMainFront (sortGroups l))).filter
        (fun g => !g.commit_messages.isEmpty) = _
      rw [harr]
    have hosort : (remove_duplicated_commits l).Pairwise (fun a b => gLE a b = true) := by
      rw [hout]
      exact List.Pairwise.sublist (List.filter_sublist _) hps
    have honm : ∀ g ∈ remove_duplicated_commits l, isMainG g = false := by
      rw [hout]
      intro g hg
      exact hpnm g (List.mem_of_mem_filter hg)
    have hnd : (flatShas (remove_duplicated_commits l)).Nodup := by
      rw [hout, flatShas_filter_nonempty]
      exact markPass_flat_nodup _ _
    have hne : ∀ g ∈ remove_duplicated_commits l, (!g.commit_messages.isEmpty) = true := by
      rw [hout]
      intro g hg
      exact (List.mem_filter.mp hg).2
    have hsid : sortGroups (remove_duplicated_commits l) = remove_duplicated_commits l :=
      sortGroups_sorted_id _ hosort
    have hmid : moveMainFront (remove_duplicated_commits l) = remove_duplicated_commits l := by
      unfold moveMainFront
      rw [(extractFirstMain_none_iff _).mpr honm]
    have hmark : markPass [] (remove_duplicated_commits l) = remove_duplicated_commits l :=
      markPass_keeps _ [] hnd (fun s _ => List.not_mem_nil s)
    show (markPass [] (moveMainFront (sortGroups (remove_duplicated_commits l)))).filter
        (fun g => !g.commit_messages.isEmpty) = remove_duplicated_commits l
    rw [hsid, hmid, hmark]
    exact List.filter_eq_self.mpr hne
  | some pr =>
    obtain ⟨x, rest⟩ := pr
    obtain ⟨pre, post, hldecomp, hrest, hprenm, hxmain⟩ :=
      extractFirstMain_some_spec (sortGroups l) x rest hE
    have harr : moveMainFront (sortGroups l) = x :: rest := by
      unfold moveMainFront
      rw [hE]
    have hrestsub : List.Sublist rest (sortGroups l) := by
      rw [hldecomp, hrest]
      exact (List.sublist_cons_self x post).append_left pre
    have hrestsort : rest.Pairwise (fun a b => gLE a b = true) :=
      List.Pairwise.sublist hrestsub hsp
    have hxbad : ∀ y ∈ rest, isMainG y = true → gLE x y = true := by
      intro y hy hym
      rw [hrest] at hy
      rcases List.mem_append.mp hy with hpy | hpy
      · rw [hprenm y hpy] at hym
        exact absurd hym (by simp)
      · have hsp' := hsp
        rw [hldecomp] at hsp'
        have h2 := (List.pairwise_append.mp hsp').2.1
        exact (List.pairwise_cons.mp h2).1 y hpy
    have hxl : x ∈ l := by
      refine (sortGroups_perm l).subset ?_
      rw [hldecomp]
      exact List.mem_append_right pre (List.mem_cons_self x post)
    have hxne : x.commit_messages ≠ [] := h x hxl
    have hx1ne : (filterMsgs [] x.commit_messages).1 ≠ [] := by
      obtain ⟨m0, ms0, hxmsgs⟩ := List.exists_cons_of_ne_nil hxne
      rw [hxmsgs]
      simp [filterMsgs]
    have hx1pos : (!({ x with commit_messages :=
        (filterMsgs [] x.commit_messages).1 } : Group).commit_messages.isEmpty) = true := by
      show (!(filterMsgs [] x.commit_messages).1.isEmpty) = true
      revert hx1ne
      cases (filterMsgs [] x.commit_messages).1 <;> simp
    have hout : remove_duplicated_commits l =
        { x with commit_messages := (filterMsgs [] x.commit_messages).1 } ::
          (markPass (filterMsgs [] x.commit_messages).2 rest).filter
            (fun g => !g.commit_messages.isEmpty) := by
      show (markPass [] (moveMainFront (sortGroups l))).filter
        (fun g => !g.commit_messages.isEmpty) = _
      rw [harr]
      show ({ x with commit_messages := (filterMsgs [] x.commit_messages).1 } ::
        markPass (filterMsgs [] x.commit_messages).2 rest).filter
          (fun g => !g.commit_messages.isEmpty) = _
      rw [List.filter_cons, if_pos hx1pos]
    have hhdr1 : (markPass (filterMsgs [] x.commit_messages).2 rest).map hdr =
        rest.map hdr := markPass_hdr rest _
    have ht'sort : ((markPass (filterMsgs [] x.commit_messages).2 rest).filter
        (fun g => !g.commit_messages.isEmpty)).Pairwise (fun a b => gLE a b = true) :=
      List.Pairwise.sublist (List.filter_sublist _) (pairwise_of_hdr_eq hhdr1.symm hrestsort)
    have ht'bad : ∀ y ∈ (markPass (filterMsgs [] x.commit_messages).2 rest).filter
        (fun g => !g.commit_messages.isEmpty), isMainG y = true → gLE x y = true :=
      fun y hy => badfree_of_hdr_eq hhdr1.symm hxbad y (List.mem_of_mem_filter hy)
    have hsid : sortGroups ((markPass (filterMsgs [] x.commit_messages).2 rest).filter
        (fun g => !g.commit_messages.isEmpty)) =
        (markPass (filterMsgs [] x.commit_messages).2 rest).filter
          (fun g => !g.commit_messages.isEmpty) :=
      sortGroups_sorted_id _ ht'sort
    have hext : extractFirstMain (insertGroup
        { x with commit_messages := (filterMsgs [] x.commit_messages).1 }
        ((markPass (filterMsgs [] x.commit_messages).2 rest).filter
          (fun g => !g.commit_messages.isEmpty))) =
        some ({ x with commit_messages := (filterMsgs [] x.commit_messages).1 },
          (markPass (filterMsgs [] x.commit_messages).2 rest).filter
            (fun g => !g.commit_messages.isEmpty)) :=
      extract_insertGroup _ _ hxmain ht'bad
    have hnd : (flatShas (remove_duplicated_commits l)).Nodup := by
      have heq : flatShas (remove_duplicated_commits l) =
          flatShas (markPass [] (moveMainFront (sortGroups l))) := by
        show flatShas ((markPass [] (moveMainFront (sortGroups l))).filter
          (fun g => !g.commit_messages.isEmpty)) = _
        exact flatShas_filter_nonempty _
      rw [heq]
      exact markPass_flat_nodup _ _
    rw [hout]
    show (markPass [] (moveMainFront (sortGroups
        ({ x with commit_messages := (filterMsgs [] x.commit_messages).1 } ::
          (markPass (filterMsgs [] x.commit_messages).2 rest).filter
            (fun g => !g.commit_messages.isEmpty))))).filter
        (fun g => !g.commit_messages.isEmpty) = _
    have hsort2 : sortGroups
        ({ x with commit_messages := (filterMsgs [] x.commit_messages).1 } ::
          (markPass (filterMsgs [] x.commit_messages).2 rest).filter
            (fun g => !g.commit_messages.isEmpty)) =
        insertGroup { x with commit_messages := (filterMsgs [] x.commit_messages).1 }
          ((markPass (filterMsgs [] x.commit_messages).2 rest).filter
            (fun g => !g.commit_messages.isEmpty)) := by
      show insertGroup _ (sortGroups _) = _
      rw [hsid]
    rw [hsort2]
    have hmove : moveMainFront (insertGroup
        { x with commit_messages := (filterMsgs [] x.commit_messages).1 }
        ((markPass (filterMsgs [] x.commit_messages).2 rest).filter
          (fun g => !g.commit_messages.isEmpty))) =
        { x with commit_messages := (filterMsgs [] x.commit_messages).1 } ::
          (markPass (filterMsgs [] x.commit_messages).2 rest).filter
            (fun g => !g.commit_messages.isEmpty) := by
      unfold moveMainFront
      rw [hext]
    rw [hmove]
    have hndout : (flatShas
        ({ x with commit_messages := (filterMsgs [] x.commit_messages).1 } ::
          (markPass (filterMsgs [] x.commit_messages).2 rest).filter
            (fun g => !g.commit_messages.isEmpty))).Nodup := by
      rw [← hout]
      exact hnd
    have hmark2 : markPass []
        ({ x with commit_messages := (filterMsgs [] x.commit_messages).1 } ::
          (markPass (filterMsgs [] x.commit_messages).2 rest).filter
            (fun g => !g.commit_messages.isEmpty)) =
        { x with commit_messages := (filterMsgs [] x.commit_messages).1 } ::
          (markPass (filterMsgs [] x.commit_messages).2 rest).filter
            (fun g => !g.commit_messages.isEmpty) :=
      markPass_keeps _ [] hndout (fun s _ => List.not_mem_nil s)
    rw [hmark2]
    refine List.filter_eq_self.mpr ?_
    intro g hg
    rcases List.mem_cons.mp hg with hgx | hgt
    · rw [hgx]
      exact hx1pos
    · exact (List.mem_filter.mp hgt).2

/-- Witness for C5 (amended) at a concrete two-group input. -/
theorem c5_dedup_idempotent_amended_witness :
    remove_duplicated_commits (remove_duplicated_commits
        [dedupExFeat, dedupExOtherMain]) =
      remove_duplicated_commits [dedupExFeat, dedupExOtherMain] :=
  c5_dedup_idempotent_amended [dedupExFeat, dedupExOtherMain] (by decide)

end RiddleSolver
